import Mathlib

/-!
Verification development for the meeting-bot controller core: session
consolidation, claim leasing, artifact fanout, URL normalization, session-key
derivation, and the Sentry PII scrubber.

The controller's Python implementation (`controller/main.py`) is not part of
the checked-in sources here; the claim/consolidation/fanout/normalizer
definitions below are modelled from the specification (spec.md sections 3-5)
and from the repository's own documentation of those functions
(`controller/README.md`, `DEDUPLICATION_TEST_REPORT.md`).  The PII scrubber is
embedded directly from the TypeScript source (`scrubPII`, `isSensitiveKey`,
`SENSITIVE_KEY_PATTERNS`).
-/

namespace MeetingBot

/-- Modelled from the spec: session status vocabulary,
`status ∈ {queued, processing, done, failed, orphaned}` (spec section 3). -/
inductive SessionStatus where
  | queued
  | processing
  | done
  | failed
  | orphaned
deriving DecidableEq, Repr

/-- Modelled from the spec: a Session document of the Session Store
(spec section 3).  Times are modelled as naturals (epoch seconds).
`claim_attempts` counts how many claims were ever taken on the session; the
spec requires bounded reclaim attempts ("exact bound is a configuration
value", spec section 8), which forces this counter to be part of the state. -/
structure Session where
  tenant_id : String
  canonical_url : String
  status : SessionStatus
  claimed_by : Option String
  claimed_at : Option Nat
  claim_expires_at : Option Nat
  claim_attempts : Nat
  primary_requester_id : String
deriving DecidableEq, Repr

/-- Modelled from the spec: the configuration surface relevant to claiming —
lease duration (`CLAIM_TTL_SECONDS` in controller/README.md) and the
configured bound on reclaim attempts (spec section 8). -/
structure ClaimConfig where
  lease_duration : Nat
  max_claim_attempts : Nat
deriving DecidableEq, Repr

/-- Modelled from the spec: claim eligibility (spec section 4.4).  A session
is eligible when its status is queued, or processing with an expired lease
(`claim_expires_at` in the past), and the configured reclaim bound has not
been exhausted. -/
def claimEligible (cfg : ClaimConfig) (now : Nat) (s : Session) : Bool :=
  decide (s.claim_attempts < cfg.max_claim_attempts) &&
    (s.status == .queued ||
      (s.status == .processing &&
        match s.claim_expires_at with
        | some e => decide (e < now)
        | none => false))

/-- Modelled from the spec: `_try_claim_meeting_session` — the atomic claim
transaction (spec section 4.4).  Read the session; if eligible, commit
`status=processing`, `claimed_by`, `claimed_at`, `claim_expires_at`; if the
optimistic precondition fails, commit nothing (`none`). -/
def tryClaimMeetingSession (cfg : ClaimConfig) (worker : String) (now : Nat)
    (s : Session) : Option Session :=
  if claimEligible cfg now s then
    some { s with
            status := .processing
            claimed_by := some worker
            claimed_at := some now
            claim_expires_at := some (now + cfg.lease_duration)
            claim_attempts := s.claim_attempts + 1 }
  else
    none

/-- Modelled from the spec: N concurrent claim attempts on one session.  The
store's transactions are linearizable (spec section 5), so a set of concurrent
attempts is an arbitrary serialization order: each worker in turn runs the
atomic claim transaction against the current document.  Returns the final
session and the per-attempt outcome (`true` = committed). -/
def runClaimAttempts (cfg : ClaimConfig) (now : Nat) (workers : List String)
    (s : Session) : Session × List Bool :=
  match workers with
  | [] => (s, [])
  | w :: ws =>
    match tryClaimMeetingSession cfg w now s with
    | some s₂ =>
      let r := runClaimAttempts cfg now ws s₂
      (r.1, true :: r.2)
    | none =>
      let r := runClaimAttempts cfg now ws s
      (r.1, false :: r.2)

/-- A worker holds a valid (unexpired) claim on a session at instant `now`. -/
def holdsValidClaim (now : Nat) (s : Session) (w : String) : Prop :=
  s.status = .processing ∧ s.claimed_by = some w ∧
    ∃ e, s.claim_expires_at = some e ∧ now < e

lemma tryClaim_of_fresh_processing (cfg : ClaimConfig) (w : String) (now : Nat)
    (s : Session) (hst : s.status = .processing)
    (he : ∃ e, s.claim_expires_at = some e ∧ ¬ e < now) :
    tryClaimMeetingSession cfg w now s = none := by
  obtain ⟨e, hee, hlt⟩ := he
  unfold tryClaimMeetingSession claimEligible
  rw [hst, hee]
  simp [hlt]

lemma runClaimAttempts_all_fail (cfg : ClaimConfig) (now : Nat)
    (ws : List String) (s : Session) (hst : s.status = .processing)
    (he : ∃ e, s.claim_expires_at = some e ∧ ¬ e < now) :
    runClaimAttempts cfg now ws s = (s, List.replicate ws.length false) := by
  induction ws with
  | nil => rfl
  | cons w ws ih =>
    unfold runClaimAttempts
    rw [tryClaim_of_fresh_processing cfg w now s hst he, ih]
    rfl

lemma tryClaim_queued (cfg : ClaimConfig) (w : String) (now : Nat)
    (s : Session) (hq : s.status = .queued)
    (hb : s.claim_attempts < cfg.max_claim_attempts) :
    tryClaimMeetingSession cfg w now s =
      some { s with
              status := .processing
              claimed_by := some w
              claimed_at := some now
              claim_expires_at := some (now + cfg.lease_duration)
              claim_attempts := s.claim_attempts + 1 } := by
  unfold tryClaimMeetingSession claimEligible
  rw [hq]
  simp [hb]

/-- C1: whenever N workers concurrently attempt the claim transaction on the
same queued session, exactly one attempt (the one the store serializes first)
commits — writing `status=processing`, `claimed_by`, `claimed_at`,
`claim_expires_at` — while the other N−1 fail the optimistic precondition and
leave the session unchanged; and at most one worker holds a valid (unexpired)
claim on a session at any instant. -/
theorem claim_mutual_exclusion (cfg : ClaimConfig) (now : Nat) (w : String)
    (ws : List String) (s : Session) (hq : s.status = .queued)
    (hb : s.claim_attempts < cfg.max_claim_attempts)
    (hl : 0 < cfg.lease_duration) :
    (runClaimAttempts cfg now (w :: ws) s).2 =
        true :: List.replicate ws.length false ∧
      (runClaimAttempts cfg now (w :: ws) s).2.count true = 1 ∧
      (runClaimAttempts cfg now (w :: ws) s).1 =
        { s with
            status := .processing
            claimed_by := some w
            claimed_at := some now
            claim_expires_at := some (now + cfg.lease_duration)
            claim_attempts := s.claim_attempts + 1 } ∧
      holdsValidClaim now (runClaimAttempts cfg now (w :: ws) s).1 w ∧
      (∀ (t : Nat) (s₂ : Session) (w₁ w₂ : String),
        holdsValidClaim t s₂ w₁ → holdsValidClaim t s₂ w₂ → w₁ = w₂) := by
  have hrun : runClaimAttempts cfg now (w :: ws) s =
      ({ s with
          status := .processing
          claimed_by := some w
          claimed_at := some now
          claim_expires_at := some (now + cfg.lease_duration)
          claim_attempts := s.claim_attempts + 1 },
        true :: List.replicate ws.length false) := by
    have h₂ := runClaimAttempts_all_fail cfg now ws
      { s with
          status := .processing
          claimed_by := some w
          claimed_at := some now
          claim_expires_at := some (now + cfg.lease_duration)
          claim_attempts := s.claim_attempts + 1 }
      rfl ⟨now + cfg.lease_duration, rfl, by omega⟩
    unfold runClaimAttempts
    rw [tryClaim_queued cfg w now s hq hb]
    simp only [h₂]
  refine ⟨by rw [hrun], ?_, by rw [hrun], ?_, ?_⟩
  · rw [hrun]
    simp [List.count_replicate]
  · rw [hrun]
    refine ⟨?_, ?_, now + cfg.lease_duration, ?_, ?_⟩ <;> first | rfl | omega
  · intro t s₂ w₁ w₂ h₁ h₂
    obtain ⟨-, hc₁, -⟩ := h₁
    obtain ⟨-, hc₂, -⟩ := h₂
    rw [hc₁] at hc₂
    exact Option.some_inj.mp hc₂

/-- Closed witness for `claim_mutual_exclusion`: three workers race on a
concrete fresh queued session; the serialization starting with "worker-a"
commits exactly one claim. -/
theorem claim_mutual_exclusion_witness :
    (Session.mk "t1" "https://x.test/meet/1" .queued none none none 0
        "u1").status = .queued ∧
      (0 : Nat) < (ClaimConfig.mk 600 2).max_claim_attempts ∧
      (0 : Nat) < (ClaimConfig.mk 600 2).lease_duration ∧
      (runClaimAttempts (ClaimConfig.mk 600 2) 1000
          ["worker-a", "worker-b", "worker-c"]
          (Session.mk "t1" "https://x.test/meet/1" .queued none none none 0
            "u1")).2 = [true, false, false] := by
  refine ⟨rfl, by decide, by decide, ?_⟩
  have h := claim_mutual_exclusion (ClaimConfig.mk 600 2) 1000 "worker-a"
    ["worker-b", "worker-c"]
    (Session.mk "t1" "https://x.test/meet/1" .queued none none none 0 "u1")
    rfl (by decide) (by decide)
  exact h.1

/-- Modelled from the spec: the Session Store as a log of documents keyed by
`session_id` (path `organizations/{org_id}/meeting_sessions/{session_id}`,
DEDUPLICATION_TEST_REPORT.md).  New documents are prepended. -/
abbrev SessionStore := List (String × Session)

/-- Modelled from the spec: read the session document with the given id. -/
def findSession (st : SessionStore) (sid : String) : Option Session :=
  match st.find? (fun p => p.1 == sid) with
  | some p => some p.2
  | none => none

/-- Number of session documents stored under a given id. -/
def countSessionDocs (st : SessionStore) (sid : String) : Nat :=
  (st.filter (fun p => p.1 == sid)).length

/-- Outcome of a conditional create-if-absent write. -/
inductive CreateResult where
  | created
  | alreadyExists (existing : Session)
deriving DecidableEq, Repr

/-- Modelled from the spec: the conditional create of
`_try_create_or_update_session_for_meeting` (spec section 4.3).  The derived
hash is the document's primary key; inside the store's transaction the
document is created only if absent, and a losing replica re-reads the
existing document and proceeds against it. -/
def tryCreateSessionIfAbsent (st : SessionStore) (sid : String)
    (s : Session) : SessionStore × CreateResult :=
  match findSession st sid with
  | some existing => (st, .alreadyExists existing)
  | none => ((sid, s) :: st, .created)

/-- A store in which every session id keys at most one document. -/
def uniqueSessionIds (st : SessionStore) : Prop :=
  ∀ sid, countSessionDocs st sid ≤ 1

lemma countSessionDocs_eq_zero (st : SessionStore) (sid : String)
    (h : findSession st sid = none) : countSessionDocs st sid = 0 := by
  unfold findSession at h
  unfold countSessionDocs
  rw [List.length_eq_zero]
  rcases hf : st.find? (fun p => p.1 == sid) with - | p
  · rw [List.filter_eq_nil_iff]
    intro a ha
    exact List.find?_eq_none.mp hf a ha
  · rw [hf] at h
    exact absurd h (by simp)

/-- C2: when a replica creates a session under a fresh derived id and a second
replica races the same create, the first create commits, the second observes
the existing document (`alreadyExists`) and writes nothing, exactly one
document exists under that id afterwards, and the conditional create
preserves the at-most-one-document-per-id invariant of the store. -/
theorem session_create_if_absent (st : SessionStore) (sid : String)
    (sA sB : Session) (habs : findSession st sid = none) :
    (tryCreateSessionIfAbsent st sid sA).2 = .created ∧
      (tryCreateSessionIfAbsent
          (tryCreateSessionIfAbsent st sid sA).1 sid sB).2 =
        .alreadyExists sA ∧
      (tryCreateSessionIfAbsent
          (tryCreateSessionIfAbsent st sid sA).1 sid sB).1 =
        (tryCreateSessionIfAbsent st sid sA).1 ∧
      findSession (tryCreateSessionIfAbsent
          (tryCreateSessionIfAbsent st sid sA).1 sid sB).1 sid = some sA ∧
      countSessionDocs (tryCreateSessionIfAbsent
          (tryCreateSessionIfAbsent st sid sA).1 sid sB).1 sid = 1 ∧
      (∀ (st₂ : SessionStore) (k : String) (s : Session),
        uniqueSessionIds st₂ →
          uniqueSessionIds (tryCreateSessionIfAbsent st₂ k s).1) := by
  have hcount := countSessionDocs_eq_zero st sid habs
  have h₁ : tryCreateSessionIfAbsent st sid sA = ((sid, sA) :: st, .created) := by
    unfold tryCreateSessionIfAbsent
    rw [habs]
  have hfind : findSession ((sid, sA) :: st) sid = some sA := by
    unfold findSession
    rw [List.find?_cons_of_pos _ (by simp)]
  have h₂ : tryCreateSessionIfAbsent ((sid, sA) :: st) sid sB =
      ((sid, sA) :: st, .alreadyExists sA) := by
    unfold tryCreateSessionIfAbsent
    rw [hfind]
  refine ⟨by rw [h₁], by rw [h₁, h₂], by rw [h₁, h₂], by rw [h₁, h₂]; exact hfind,
    ?_, ?_⟩
  · rw [h₁, h₂]
    show countSessionDocs ((sid, sA) :: st) sid = 1
    unfold countSessionDocs at hcount ⊢
    rw [List.filter_cons_of_pos (by simp), List.length_cons, hcount]
  · intro st₂ k s huniq
    unfold tryCreateSessionIfAbsent
    rcases hf : findSession st₂ k with - | ex
    · intro sid'
      have h0 := countSessionDocs_eq_zero st₂ k hf
      have h' := huniq sid'
      unfold countSessionDocs at h0 h' ⊢
      rcases hk : ((k, s).1 == sid') with - | -
      · rw [List.filter_cons_of_neg (by rw [hk]; simp)]
        exact h'
      · rw [List.filter_cons_of_pos (by rw [hk]), List.length_cons]
        have : sid' = k := by
          have := eq_of_beq hk
          exact this.symm
        subst this
        omega
    · exact huniq

/-- Closed witness for `session_create_if_absent`: two replicas race the same
fresh session id on an empty store. -/
theorem session_create_if_absent_witness :
    findSession [] "sid-1" = none ∧
      (tryCreateSessionIfAbsent
          (tryCreateSessionIfAbsent [] "sid-1"
            (Session.mk "t1" "https://x.test/meet/1" .queued none none none 0
              "u1")).1 "sid-1"
          (Session.mk "t1" "https://x.test/meet/1" .queued none none none 0
            "u2")).2 =
        .alreadyExists
          (Session.mk "t1" "https://x.test/meet/1" .queued none none none 0
            "u1") := by
  refine ⟨rfl, ?_⟩
  have h := session_create_if_absent [] "sid-1"
    (Session.mk "t1" "https://x.test/meet/1" .queued none none none 0 "u1")
    (Session.mk "t1" "https://x.test/meet/1" .queued none none none 0 "u2")
    rfl
  exact h.2.1

/-- Modelled from the spec: the Work Dispatcher's completion report
(spec section 4.4).  `status=done` or `status=failed` is written with the
claim's identity as a precondition: the write commits only if the session is
still `processing` and still claimed by the reporting worker. -/
def reportCompletion (worker : String) (success : Bool)
    (s : Session) : Option Session :=
  if s.status == .processing && s.claimed_by == some worker then
    some { s with status := if success then .done else .failed }
  else
    none

lemma tryClaim_expired (cfg : ClaimConfig) (w : String) (now : Nat)
    (s : Session) (hst : s.status = .processing)
    (he : ∃ e, s.claim_expires_at = some e ∧ e < now)
    (hb : s.claim_attempts < cfg.max_claim_attempts) :
    tryClaimMeetingSession cfg w now s =
      some { s with
              status := .processing
              claimed_by := some w
              claimed_at := some now
              claim_expires_at := some (now + cfg.lease_duration)
              claim_attempts := s.claim_attempts + 1 } := by
  obtain ⟨e, hee, hlt⟩ := he
  unfold tryClaimMeetingSession claimEligible
  rw [hst, hee]
  simp [hb, hlt]

/-- C5: a completion report takes effect only when it carries the identity of
the session's current claim — any report from a worker other than the current
claimant is rejected and leaves the session unchanged; in particular, after a
lease expires and the session is reclaimed by a second worker, the stale first
worker's late report is rejected while the current claimant's report
commits. -/
theorem stale_report_rejected (cfg : ClaimConfig) (s : Session)
    (w₁ w₂ : String) (t₁ t₂ : Nat) (b : Bool) (hq : s.status = .queued)
    (hb : s.claim_attempts + 1 < cfg.max_claim_attempts)
    (hexp : t₁ + cfg.lease_duration < t₂) (hw : w₁ ≠ w₂) :
    (∀ (s₂ : Session) (w w' : String) (b₂ : Bool),
        s₂.claimed_by = some w' → w ≠ w' →
          reportCompletion w b₂ s₂ = none) ∧
      (∃ s₁ s₂ : Session,
        tryClaimMeetingSession cfg w₁ t₁ s = some s₁ ∧
          tryClaimMeetingSession cfg w₂ t₂ s₁ = some s₂ ∧
          reportCompletion w₁ b s₂ = none ∧
          reportCompletion w₂ b s₂ =
            some { s₂ with status := if b then .done else .failed }) := by
  have hreject : ∀ (s₂ : Session) (w w' : String) (b₂ : Bool),
      s₂.claimed_by = some w' → w ≠ w' → reportCompletion w b₂ s₂ = none := by
    intro s₂ w w' b₂ hc hne
    unfold reportCompletion
    rw [hc]
    have : (some w' == some w) = false := by
      simp only [beq_eq_false_iff_ne, ne_eq, Option.some.injEq]
      exact fun h => hne h.symm
    rw [this]
    simp
  refine ⟨hreject, ?_⟩
  refine ⟨{ s with
      status := .processing
      claimed_by := some w₁
      claimed_at := some t₁
      claim_expires_at := some (t₁ + cfg.lease_duration)
      claim_attempts := s.claim_attempts + 1 },
    { s with
      status := .processing
      claimed_by := some w₂
      claimed_at := some t₂
      claim_expires_at := some (t₂ + cfg.lease_duration)
      claim_attempts := s.claim_attempts + 1 + 1 }, ?_, ?_, ?_, ?_⟩
  · exact tryClaim_queued cfg w₁ t₁ s hq (by omega)
  · exact tryClaim_expired cfg w₂ t₂ _ rfl
      ⟨t₁ + cfg.lease_duration, rfl, hexp⟩ (by simpa using hb)
  · exact hreject _ w₁ w₂ b rfl hw
  · unfold reportCompletion
    rw [if_pos (by simp)]

/-- Closed witness for `stale_report_rejected` at concrete inputs: worker "wA"
claims at time 0 with a 600-second lease, the lease expires, "wB" reclaims at
time 1000, and "wA"'s late report is rejected. -/
theorem stale_report_rejected_witness :
    (Session.mk "t1" "https://x.test/meet/1" .queued none none none 0
        "u1").status = .queued ∧
      0 + 1 < (ClaimConfig.mk 600 2).max_claim_attempts ∧
      0 + (ClaimConfig.mk 600 2).lease_duration < 1000 ∧
      ("wA" : String) ≠ "wB" ∧
      (∃ s₁ s₂ : Session,
        tryClaimMeetingSession (ClaimConfig.mk 600 2) "wA" 0
            (Session.mk "t1" "https://x.test/meet/1" .queued none none none 0
              "u1") = some s₁ ∧
          tryClaimMeetingSession (ClaimConfig.mk 600 2) "wB" 1000 s₁ =
            some s₂ ∧
          reportCompletion "wA" true s₂ = none ∧
          reportCompletion "wB" true s₂ =
            some { s₂ with status := .done }) := by
  refine ⟨rfl, by decide, by decide, by decide, ?_⟩
  have h := stale_report_rejected (ClaimConfig.mk 600 2)
    (Session.mk "t1" "https://x.test/meet/1" .queued none none none 0 "u1")
    "wA" "wB" 0 1000 true rfl (by decide) (by decide) (by decide)
  exact h.2

/-- Modelled from the spec: the claim scan's orphan transition
(`SESSION_ORPHANED`).  A processing session whose lease has expired and whose
configured reclaim bound is exhausted is marked orphaned for operator
visibility instead of being claimed again (spec sections 4.4 and 8). -/
def markOrphanedIfExpired (cfg : ClaimConfig) (now : Nat)
    (s : Session) : Session :=
  if s.status == .processing &&
      (match s.claim_expires_at with
        | some e => decide (e < now)
        | none => false) &&
      decide (cfg.max_claim_attempts ≤ s.claim_attempts) then
    { s with status := .orphaned }
  else
    s

/-- C6: reclaim attempts are bounded by the configured
`max_claim_attempts`.  With the bound set to 2: a queued session is claimed
once; after its lease expires with no report, the next claim scan finds it
eligible again and a second worker claims it; after the second lease expiry
with still no report, a third claim attempt fails and the scan transitions the
session to orphaned.  In general any session whose claim count has reached the
bound can never be claimed again. -/
theorem bounded_reclaims_then_orphaned (cfg : ClaimConfig) (s : Session)
    (w₁ w₂ w₃ : String) (t₁ t₂ t₃ : Nat) (hq : s.status = .queued)
    (ha : s.claim_attempts = 0) (hmax : cfg.max_claim_attempts = 2)
    (h₁₂ : t₁ + cfg.lease_duration < t₂)
    (h₂₃ : t₂ + cfg.lease_duration < t₃) :
    (∀ (s₂ : Session) (w : String) (t : Nat),
        cfg.max_claim_attempts ≤ s₂.claim_attempts →
          tryClaimMeetingSession cfg w t s₂ = none) ∧
      (∃ s₁ s₂ : Session,
        tryClaimMeetingSession cfg w₁ t₁ s = some s₁ ∧
          claimEligible cfg t₂ s₁ = true ∧
          tryClaimMeetingSession cfg w₂ t₂ s₁ = some s₂ ∧
          tryClaimMeetingSession cfg w₃ t₃ s₂ = none ∧
          (markOrphanedIfExpired cfg t₃ s₂).status = .orphaned) := by
  have hexhausted : ∀ (s₂ : Session) (w : String) (t : Nat),
      cfg.max_claim_attempts ≤ s₂.claim_attempts →
        tryClaimMeetingSession cfg w t s₂ = none := by
    intro s₂ w t hle
    unfold tryClaimMeetingSession claimEligible
    rw [if_neg]
    simp only [Bool.and_eq_true, decide_eq_true_eq, not_and]
    intro hlt
    omega
  refine ⟨hexhausted, ?_⟩
  refine ⟨{ s with
      status := .processing
      claimed_by := some w₁
      claimed_at := some t₁
      claim_expires_at := some (t₁ + cfg.lease_duration)
      claim_attempts := s.claim_attempts + 1 },
    { s with
      status := .processing
      claimed_by := some w₂
      claimed_at := some t₂
      claim_expires_at := some (t₂ + cfg.lease_duration)
      claim_attempts := s.claim_attempts + 1 + 1 }, ?_, ?_, ?_, ?_, ?_⟩
  · exact tryClaim_queued cfg w₁ t₁ s hq (by omega)
  · unfold claimEligible
    simp only [Bool.and_eq_true, decide_eq_true_eq, Bool.or_eq_true]
    exact ⟨by omega, Or.inr ⟨rfl, by simpa using h₁₂⟩⟩
  · exact tryClaim_expired cfg w₂ t₂ _ rfl
      ⟨t₁ + cfg.lease_duration, rfl, h₁₂⟩ (by simp; omega)
  · exact hexhausted _ w₃ t₃ (by simp; omega)
  · unfold markOrphanedIfExpired
    rw [if_pos]
    show (SessionStatus.processing == SessionStatus.processing &&
        decide (t₂ + cfg.lease_duration < t₃) &&
        decide (cfg.max_claim_attempts ≤ s.claim_attempts + 1 + 1)) = true
    simp only [Bool.and_eq_true, beq_iff_eq, decide_eq_true_eq]
    refine ⟨⟨?_, ?_⟩, ?_⟩
    · trivial
    · exact h₂₃
    · omega

/-- Closed witness for `bounded_reclaims_then_orphaned`: lease 600s, bound 2,
claims at times 0 and 1000, scan at time 2000. -/
theorem bounded_reclaims_then_orphaned_witness :
    (Session.mk "t1" "https://x.test/meet/1" .queued none none none 0
        "u1").status = .queued ∧
      (Session.mk "t1" "https://x.test/meet/1" .queued none none none 0
        "u1").claim_attempts = 0 ∧
      (ClaimConfig.mk 600 2).max_claim_attempts = 2 ∧
      0 + (ClaimConfig.mk 600 2).lease_duration < 1000 ∧
      1000 + (ClaimConfig.mk 600 2).lease_duration < 2000 ∧
      (∃ s₁ s₂ : Session,
        tryClaimMeetingSession (ClaimConfig.mk 600 2) "wA" 0
            (Session.mk "t1" "https://x.test/meet/1" .queued none none none 0
              "u1") = some s₁ ∧
          claimEligible (ClaimConfig.mk 600 2) 1000 s₁ = true ∧
          tryClaimMeetingSession (ClaimConfig.mk 600 2) "wB" 1000 s₁ =
            some s₂ ∧
          tryClaimMeetingSession (ClaimConfig.mk 600 2) "wC" 2000 s₂ = none ∧
          (markOrphanedIfExpired (ClaimConfig.mk 600 2) 2000 s₂).status =
            .orphaned) := by
  refine ⟨rfl, rfl, rfl, by decide, by decide, ?_⟩
  have h := bounded_reclaims_then_orphaned (ClaimConfig.mk 600 2)
    (Session.mk "t1" "https://x.test/meet/1" .queued none none none 0 "u1")
    "wA" "wB" "wC" 0 1000 2000 rfl rfl rfl (by decide) (by decide)
  exact h.2

/-- Modelled from the spec: delivery status of a subscriber
(spec section 3). -/
inductive DeliveryStatus where
  | pending
  | delivered
  | failed
deriving DecidableEq, Repr

/-- Modelled from the spec: a Subscriber document, child of a Session
(spec section 3). -/
structure Subscriber where
  requester_id : String
  source_meeting_id : String
  dest_base : String
  delivery_status : DeliveryStatus
deriving DecidableEq, Repr

/-- Modelled from the spec: the destination path of one named artifact under
one subscriber's own identity/meeting scope (spec section 4.5). -/
def artifactDest (sub : Subscriber) (name : String) : String :=
  sub.dest_base ++ "/" ++ name

/-- Modelled from the spec: process one destination after another — if the
destination already exists in the artifact store, skip it, otherwise copy it
(spec section 4.5).  Returns the resulting artifact store, the copied count
and the skipped count. -/
def copyArtifacts (store : List String) :
    List String → List String × Nat × Nat
  | [] => (store, 0, 0)
  | d :: ds =>
    if store.contains d then
      let r := copyArtifacts store ds
      (r.1, r.2.1, r.2.2 + 1)
    else
      let r := copyArtifacts (d :: store) ds
      (r.1, r.2.1 + 1, r.2.2)

/-- Modelled from the spec: `_fanout_meeting_session_artifacts` — for every
subscriber and every artifact of the manifest, copy the artifact to the
subscriber's destination unless it already exists (spec section 4.5). -/
def fanoutMeetingSessionArtifacts (store : List String)
    (manifest : List (String × String)) (subs : List Subscriber) :
    List String × Nat × Nat :=
  copyArtifacts store
    (subs.flatMap (fun sub => manifest.map (fun a => artifactDest sub a.1)))

lemma copyArtifacts_preserves (ds : List String) (store : List String)
    (d : String) (h : d ∈ store) : d ∈ (copyArtifacts store ds).1 := by
  induction ds generalizing store with
  | nil => exact h
  | cons x ds ih =>
    unfold copyArtifacts
    by_cases hc : store.contains x = true
    · rw [if_pos hc]
      exact ih store h
    · rw [if_neg hc]
      exact ih (x :: store) (List.mem_cons_of_mem x h)

lemma copyArtifacts_mem (ds : List String) (store : List String)
    (d : String) (h : d ∈ ds) : d ∈ (copyArtifacts store ds).1 := by
  induction ds generalizing store with
  | nil => cases h
  | cons x ds ih =>
    unfold copyArtifacts
    by_cases hc : store.contains x = true
    · rw [if_pos hc]
      rcases List.mem_cons.mp h with heq | hmem
      · subst heq
        exact copyArtifacts_preserves ds store d
          (List.elem_iff.mp hc)
      · exact ih store hmem
    · rw [if_neg hc]
      rcases List.mem_cons.mp h with heq | hmem
      · subst heq
        exact copyArtifacts_preserves ds (d :: store) d (List.mem_cons_self d store)
      · exact ih (x :: store) hmem

lemma copyArtifacts_all_present (ds : List String) (store : List String)
    (h : ∀ d ∈ ds, d ∈ store) :
    copyArtifacts store ds = (store, 0, ds.length) := by
  induction ds with
  | nil => rfl
  | cons x ds ih =>
    unfold copyArtifacts
    rw [if_pos (List.elem_iff.mpr (h x (List.mem_cons_self x ds)))]
    rw [ih fun d hd => h d (List.mem_cons_of_mem x hd)]
    rfl

lemma length_flatMap_const {α β : Type} (l : List α) (f : α → List β)
    (k : Nat) (h : ∀ a, (f a).length = k) :
    (l.flatMap f).length = l.length * k := by
  induction l with
  | nil => simp
  | cons a l ih =>
    rw [List.flatMap_cons, List.length_append, h a, ih, List.length_cons]
    ring

/-- C7: the Fanout Engine is idempotent with respect to a fixed artifact
manifest — running fanout a second time over the same manifest and subscriber
set copies no artifact again: every destination already exists, so the second
run reports 0 copied and N skipped (one skip per subscriber/artifact
destination), and leaves the artifact store unchanged. -/
theorem fanout_idempotent (store : List String)
    (manifest : List (String × String)) (subs : List Subscriber) :
    fanoutMeetingSessionArtifacts
        (fanoutMeetingSessionArtifacts store manifest subs).1 manifest subs =
      ((fanoutMeetingSessionArtifacts store manifest subs).1, 0,
        subs.length * manifest.length) := by
  unfold fanoutMeetingSessionArtifacts
  rw [copyArtifacts_all_present]
  · rw [length_flatMap_const _ _ manifest.length
      (fun sub => List.length_map _ _)]
  · intro d hd
    exact copyArtifacts_mem _ store d hd

/-- ASCII lower-casing of one character; models the case-insensitivity flag
of the scrubber's regular expressions and the lower-casing the URL normalizer
applies to scheme and host. -/
def lowerChar (c : Char) : Char :=
  if 65 ≤ c.toNat ∧ c.toNat ≤ 90 then Char.ofNat (c.toNat + 32) else c

/-- ASCII lower-casing of a string. -/
def lowerStr (s : String) : String := String.mk (s.data.map lowerChar)

/-- Does the character sequence `pat` occur contiguously inside `l`? -/
def containsSeq (pat : List Char) : List Char → Bool
  | [] => pat.isPrefixOf ([] : List Char)
  | x :: xs => pat.isPrefixOf (x :: xs) || containsSeq pat xs

/-- Does `pat` occur as a substring of `s`? -/
def containsStr (s pat : String) : Bool := containsSeq pat.data s.data

/-- Does `s` begin with `pat`? -/
def beginsWith (pat s : String) : Bool := pat.data.isPrefixOf s.data

/-- An unanchored case-insensitive pattern `/pat/i` (with `pat` already
lower-case) applied to a key. -/
def matchSub (pat k : String) : Bool := containsStr (lowerStr k) pat

/-- An exactly-anchored case-insensitive pattern `/^pat$/i`. -/
def matchExact (pat k : String) : Bool := lowerStr k == pat

/-- A start-anchored case-insensitive pattern `/^pat/i`. -/
def matchStart (pat k : String) : Bool := beginsWith pat (lowerStr k)

/-- The `SENSITIVE_KEY_PATTERNS` list of the PII scrubber, embedded pattern
for pattern from the source; `/licen[sc]e/i` becomes the disjunction of its
two expansions. -/
def SENSITIVE_KEY_PATTERNS : List (String → Bool) :=
  [matchSub "email", matchSub "phone", matchSub "mobile", matchSub "address",
    matchExact "name", matchSub "firstname", matchSub "lastname",
    matchSub "fullname", matchSub "first_name", matchSub "last_name",
    matchSub "full_name", matchSub "dob", matchSub "dateofbirth",
    matchSub "date_of_birth", matchSub "birthdate", matchSub "birth_date",
    matchSub "ssn", matchSub "socialsecurity", matchSub "social_security",
    matchSub "tfn", matchSub "taxfilenumber", matchSub "tax_file_number",
    matchSub "passport",
    fun k => matchSub "license" k || matchSub "licence" k,
    matchSub "medicare",
    matchSub "accountnumber", matchSub "account_number", matchSub "bsb",
    matchSub "cardnumber", matchSub "card_number", matchSub "cvv",
    matchSub "cvc", matchSub "iban", matchSub "swift", matchSub "abn",
    matchSub "acn", matchSub "routing",
    matchSub "password", matchSub "token", matchSub "secret",
    matchSub "apikey", matchSub "api_key", matchStart "auth",
    matchSub "credential", matchSub "session", matchSub "cookie",
    matchSub "balance", matchSub "income", matchSub "salary",
    matchSub "superannuation", matchExact "super", matchSub "investment",
    matchSub "portfolio", matchSub "networth", matchSub "net_worth",
    matchSub "asset", matchSub "liability", matchSub "debt", matchSub "loan",
    matchSub "mortgage", matchSub "insurance", matchSub "beneficiary",
    matchSub "clientid", matchSub "client_id", matchSub "customerid",
    matchSub "customer_id", matchSub "userid", matchSub "user_id",
    matchSub "uid"]

/-- `isSensitiveKey` from the source: does any sensitive pattern match the
key? -/
def isSensitiveKey (key : String) : Bool :=
  SENSITIVE_KEY_PATTERNS.any fun pat => pat key

/-- A JavaScript value node.  Arrays and objects hold heap addresses rather
than inline children, so arbitrary object graphs — including cyclic ones —
are representable.  Functions and symbols (which `scrubPII` passes through
like other primitives) are outside the model. -/
inductive JVal where
  | vnull
  | vundef
  | vstr (s : String)
  | vnum (n : Int)
  | vbool (b : Bool)
  | varr (elems : List Nat)
  | vobj (fields : List (String × Nat))
deriving DecidableEq, Repr

/-- An object graph: every address holds one value node. -/
def Heap : Type := Nat → JVal

/-- Output values of the scrubber (pure finite trees: the depth cap prevents
the output from ever being cyclic). -/
inductive SVal where
  | snull
  | sundef
  | sstr (s : String)
  | snum (n : Int)
  | sbool (b : Bool)
  | sarr (elems : List SVal)
  | sobj (fields : List (String × SVal))

/-- One unfolding of the body of `scrubPII` (source lines 175-215): `rec`
processes child values at the next depth.  `scrubString`, the regex-based
value scrubber applied to strings, is kept abstract — every theorem below
holds for an arbitrary `scrubString`. -/
def scrubStep (scrubString : String → String) (h : Heap)
    (rec : Nat → SVal) (a : Nat) : SVal :=
  match h a with
  | .vnull => .snull
  | .vundef => .sundef
  | .vstr s => .sstr (scrubString s)
  | .vnum n => .snum n
  | .vbool b => .sbool b
  | .varr es => .sarr (es.map rec)
  | .vobj fs => .sobj (fs.map fun kv =>
      (kv.1, if isSensitiveKey kv.1 then SVal.sstr "[REDACTED]" else rec kv.2))

/-- The scrubber with explicit fuel; fuel `0` is the exhausted depth budget
(`depth > 10`). -/
def scrubFuel (scrubString : String → String) (h : Heap) :
    Nat → Nat → SVal
  | 0, _ => .sstr "[MAX_DEPTH]"
  | fuel + 1, a => scrubStep scrubString h (scrubFuel scrubString h fuel) a

/-- `scrubPII(value, depth)` from the source: at `depth > 10` return
`"[MAX_DEPTH]"`, otherwise dispatch on the value and recurse on children at
`depth + 1`.  The remaining budget `11 - depth` is the fuel. -/
def scrubPII (scrubString : String → String) (h : Heap) (a : Nat)
    (depth : Nat) : SVal :=
  scrubFuel scrubString h (11 - depth) a

/-- A heap whose every address is an array containing itself: a cyclic object
graph. -/
def selfLoopHeap : Heap := fun _ => .varr [0]

/-- `n` nested singleton arrays around the `"[MAX_DEPTH]"` marker. -/
def maxDepthTower : Nat → SVal
  | 0 => .sstr "[MAX_DEPTH]"
  | n + 1 => .sarr [maxDepthTower n]

lemma scrubPII_depth_exceeded (ss : String → String) (h : Heap) (a d : Nat)
    (hd : 10 < d) : scrubPII ss h a d = .sstr "[MAX_DEPTH]" := by
  unfold scrubPII
  have h0 : 11 - d = 0 := by omega
  rw [h0]
  rfl

lemma scrubPII_eq_step (ss : String → String) (h : Heap) (a d : Nat)
    (hd : d ≤ 10) :
    scrubPII ss h a d =
      scrubStep ss h (fun e => scrubPII ss h e (d + 1)) a := by
  unfold scrubPII
  have hfuel : 11 - d = (10 - d) + 1 := by omega
  have hnext : 11 - (d + 1) = 10 - d := by omega
  rw [hfuel, hnext]
  rfl

lemma scrubPII_obj (ss : String → String) (h : Heap) (a d : Nat)
    (fs : List (String × Nat)) (hd : d ≤ 10) (hv : h a = .vobj fs) :
    scrubPII ss h a d =
      .sobj (fs.map fun kv =>
        (kv.1, if isSensitiveKey kv.1 then SVal.sstr "[REDACTED]"
          else scrubPII ss h kv.2 (d + 1))) := by
  rw [scrubPII_eq_step ss h a d hd]
  unfold scrubStep
  rw [hv]

/-- C9: `scrubPII` is total and terminating on every input — beyond the depth
cap of 10 it returns `"[MAX_DEPTH]"`; on the cyclic self-referencing array it
terminates with 11 nested levels and the marker; and within the cap it
returns (without raising) for null, undefined, strings, numbers, booleans,
arrays and objects, recursing on children at `depth + 1`. -/
theorem scrubPII_total_depth_capped (scrubString : String → String)
    (h : Heap) (a : Nat) (d : Nat) :
    (10 < d → scrubPII scrubString h a d = .sstr "[MAX_DEPTH]") ∧
      scrubPII (fun s => s) selfLoopHeap 0 0 = maxDepthTower 11 ∧
      (d ≤ 10 →
        (h a = .vnull → scrubPII scrubString h a d = .snull) ∧
        (h a = .vundef → scrubPII scrubString h a d = .sundef) ∧
        (∀ s, h a = .vstr s →
          scrubPII scrubString h a d = .sstr (scrubString s)) ∧
        (∀ n, h a = .vnum n → scrubPII scrubString h a d = .snum n) ∧
        (∀ b, h a = .vbool b → scrubPII scrubString h a d = .sbool b) ∧
        (∀ es, h a = .varr es →
          scrubPII scrubString h a d =
            .sarr (es.map fun e => scrubPII scrubString h e (d + 1))) ∧
        (∀ fs, h a = .vobj fs →
          scrubPII scrubString h a d =
            .sobj (fs.map fun kv =>
              (kv.1, if isSensitiveKey kv.1 then SVal.sstr "[REDACTED]"
                else scrubPII scrubString h kv.2 (d + 1))))) := by
  refine ⟨scrubPII_depth_exceeded scrubString h a d, rfl, fun hd => ?_⟩
  have hstep := scrubPII_eq_step scrubString h a d hd
  refine ⟨?_, ?_, ?_, ?_, ?_, ?_,
    fun fs hv => scrubPII_obj scrubString h a d fs hd hv⟩
  · intro hv
    rw [hstep]
    unfold scrubStep
    rw [hv]
  · intro hv
    rw [hstep]
    unfold scrubStep
    rw [hv]
  · intro s hv
    rw [hstep]
    unfold scrubStep
    rw [hv]
  · intro n hv
    rw [hstep]
    unfold scrubStep
    rw [hv]
  · intro b hv
    rw [hstep]
    unfold scrubStep
    rw [hv]
  · intro es hv
    rw [hstep]
    unfold scrubStep
    rw [hv]

/-- Closed witness for `scrubPII_total_depth_capped`: at depth 11 on the
cyclic heap the marker is returned, and a concrete string value at depth 0 is
passed through the string scrubber. -/
theorem scrubPII_total_depth_capped_witness :
    (10 < 11 ∧
        scrubPII (fun s => s) selfLoopHeap 0 11 = .sstr "[MAX_DEPTH]") ∧
      ((0 : Nat) ≤ 10 ∧
        (fun _ => JVal.vstr "hello" : Heap) 0 = .vstr "hello" ∧
        scrubPII (fun s => s) (fun _ => JVal.vstr "hello") 0 0 =
          .sstr "hello") := by
  refine ⟨⟨by decide, ?_⟩, ⟨by decide, rfl, ?_⟩⟩
  · exact (scrubPII_total_depth_capped (fun s => s) selfLoopHeap 0 11).1
      (by decide)
  · exact ((scrubPII_total_depth_capped (fun s => s)
      (fun _ => JVal.vstr "hello") 0 0).2.2 (by decide)).2.2.1 "hello" rfl

/-- C10: in the result of `scrubPII` on any object processed within the
recursion cap, every field whose key matches one of the
`SENSITIVE_KEY_PATTERNS` is mapped to the string `"[REDACTED]"`, regardless
of the value that key held. -/
theorem sensitive_keys_redacted (scrubString : String → String) (h : Heap)
    (a d : Nat) (fs : List (String × Nat)) (k : String) (v : Nat)
    (hd : d ≤ 10) (hobj : h a = .vobj fs) (hmem : (k, v) ∈ fs)
    (hsens : isSensitiveKey k = true) :
    ∃ out, scrubPII scrubString h a d = SVal.sobj out ∧
      (k, SVal.sstr "[REDACTED]") ∈ out := by
  refine ⟨fs.map fun kv =>
      (kv.1, if isSensitiveKey kv.1 then SVal.sstr "[REDACTED]"
        else scrubPII scrubString h kv.2 (d + 1)),
    scrubPII_obj scrubString h a d fs hd hobj, ?_⟩
  have : ((k, v).1, if isSensitiveKey (k, v).1 then SVal.sstr "[REDACTED]"
      else scrubPII scrubString h (k, v).2 (d + 1)) =
      (k, SVal.sstr "[REDACTED]") := by
    rw [hsens]
    rfl
  rw [← this]
  exact List.mem_map_of_mem _ hmem

/-- Closed witness for `sensitive_keys_redacted`: an object holding an
`email` field at a concrete address; the field is redacted even though it
held a string value. -/
theorem sensitive_keys_redacted_witness :
    (0 : Nat) ≤ 10 ∧
      (fun n => if n = 0 then JVal.vobj [("email", 1)]
          else JVal.vstr "x@y.com" : Heap) 0 = .vobj [("email", 1)] ∧
      ("email", 1) ∈ [(("email" : String), (1 : Nat))] ∧
      isSensitiveKey "email" = true ∧
      (∃ out, scrubPII (fun s => s)
          (fun n => if n = 0 then JVal.vobj [("email", 1)]
            else JVal.vstr "x@y.com") 0 0 = SVal.sobj out ∧
        ("email", SVal.sstr "[REDACTED]") ∈ out) := by
  refine ⟨by decide, rfl, by decide, by decide, ?_⟩
  exact sensitive_keys_redacted (fun s => s)
    (fun n => if n = 0 then JVal.vobj [("email", 1)]
      else JVal.vstr "x@y.com") 0 0 [("email", 1)] "email" 1
    (by decide) rfl (by decide) (by decide)

/-- Split a character list at the first occurrence of `c`: the part before
it, and — when `c` occurs — the part after it. -/
def splitFirst (c : Char) : List Char → List Char × Option (List Char)
  | [] => ([], none)
  | x :: xs =>
    if x = c then ([], some xs)
    else (x :: (splitFirst c xs).1, (splitFirst c xs).2)

lemma splitFirst_cons_eq (c : Char) (xs : List Char) :
    splitFirst c (c :: xs) = ([], some xs) := by
  simp [splitFirst]

lemma splitFirst_cons_ne (c x : Char) (xs : List Char) (h : ¬ x = c) :
    splitFirst c (x :: xs) =
      (x :: (splitFirst c xs).1, (splitFirst c xs).2) := by
  simp [splitFirst, h]

lemma ne_of_not_mem_cons {c x : Char} {xs : List Char}
    (h : c ∉ x :: xs) : ¬ x = c := by
  intro heq
  subst heq
  exact h (List.mem_cons_self x xs)

lemma not_mem_of_not_mem_cons {c x : Char} {xs : List Char}
    (h : c ∉ x :: xs) : c ∉ xs :=
  fun hm => h (List.mem_cons_of_mem x hm)

lemma splitFirst_fst_not_mem (c : Char) (l : List Char) :
    c ∉ (splitFirst c l).1 := by
  induction l with
  | nil => simp [splitFirst]
  | cons x xs ih =>
    by_cases hx : x = c
    · subst hx
      rw [splitFirst_cons_eq]
      simp
    · rw [splitFirst_cons_ne c x xs hx]
      simp only [List.mem_cons, not_or]
      exact ⟨fun h => hx h.symm, ih⟩

lemma splitFirst_fst_subset (c : Char) (l : List Char) :
    ∀ x ∈ (splitFirst c l).1, x ∈ l := by
  induction l with
  | nil => simp [splitFirst]
  | cons y xs ih =>
    by_cases hy : y = c
    · subst hy
      rw [splitFirst_cons_eq]
      simp
    · rw [splitFirst_cons_ne c y xs hy]
      intro x hx
      rcases List.mem_cons.mp hx with heq | hmem
      · subst heq
        exact List.mem_cons_self x xs
      · exact List.mem_cons_of_mem y (ih x hmem)

lemma splitFirst_snd_subset (c : Char) (l r : List Char)
    (h : (splitFirst c l).2 = some r) : ∀ x ∈ r, x ∈ l := by
  induction l generalizing r with
  | nil => simp [splitFirst] at h
  | cons y xs ih =>
    by_cases hy : y = c
    · subst hy
      rw [splitFirst_cons_eq] at h
      simp only [Option.some_inj] at h
      subst h
      exact fun x hx => List.mem_cons_of_mem y hx
    · rw [splitFirst_cons_ne c y xs hy] at h
      exact fun x hx => List.mem_cons_of_mem y (ih r h x hx)

lemma splitFirst_of_not_mem (c : Char) (l : List Char) (h : c ∉ l) :
    splitFirst c l = (l, none) := by
  induction l with
  | nil => rfl
  | cons x xs ih =>
    rw [splitFirst_cons_ne c x xs (ne_of_not_mem_cons h)]
    rw [ih (not_mem_of_not_mem_cons h)]

lemma splitFirst_append (c : Char) (a b : List Char) (h : c ∉ a) :
    splitFirst c (a ++ c :: b) = (a, some b) := by
  induction a with
  | nil => simp [splitFirst_cons_eq]
  | cons x xs ih =>
    rw [List.cons_append,
      splitFirst_cons_ne c x _ (ne_of_not_mem_cons h)]
    rw [ih (not_mem_of_not_mem_cons h)]

/-- Split a character list at every occurrence of `c` (accumulator form). -/
def splitAllAux (c : Char) : List Char → List Char → List (List Char)
  | [], acc => [acc.reverse]
  | x :: xs, acc =>
    if x = c then acc.reverse :: splitAllAux c xs []
    else splitAllAux c xs (x :: acc)

/-- Split a character list at every occurrence of `c`. -/
def splitAll (c : Char) (l : List Char) : List (List Char) :=
  splitAllAux c l []

/-- Join parts with the separator `c` — the inverse of `splitAll`. -/
def joinParts (c : Char) : List (List Char) → List Char
  | [] => []
  | [p] => p
  | p :: q :: ps => p ++ c :: joinParts c (q :: ps)

lemma splitAllAux_cons_eq (c : Char) (xs acc : List Char) :
    splitAllAux c (c :: xs) acc = acc.reverse :: splitAllAux c xs [] := by
  simp [splitAllAux]

lemma splitAllAux_cons_ne (c x : Char) (xs acc : List Char) (h : ¬ x = c) :
    splitAllAux c (x :: xs) acc = splitAllAux c xs (x :: acc) := by
  simp [splitAllAux, h]

lemma splitAllAux_no_sep (c : Char) (p acc : List Char) (h : c ∉ p) :
    splitAllAux c p acc = [acc.reverse ++ p] := by
  induction p generalizing acc with
  | nil => simp [splitAllAux]
  | cons x xs ih =>
    rw [splitAllAux_cons_ne c x xs acc (ne_of_not_mem_cons h)]
    rw [ih (x :: acc) (not_mem_of_not_mem_cons h)]
    simp

lemma splitAllAux_sep (c : Char) (p acc rest : List Char) (h : c ∉ p) :
    splitAllAux c (p ++ c :: rest) acc =
      (acc.reverse ++ p) :: splitAllAux c rest [] := by
  induction p generalizing acc with
  | nil =>
    rw [List.nil_append, splitAllAux_cons_eq]
    simp
  | cons x xs ih =>
    rw [List.cons_append]
    rw [splitAllAux_cons_ne c x _ acc (ne_of_not_mem_cons h)]
    rw [ih (x :: acc) (not_mem_of_not_mem_cons h)]
    simp

lemma splitAll_joinParts (c : Char) (ps : List (List Char)) (hne : ps ≠ [])
    (hp : ∀ p ∈ ps, c ∉ p) : splitAll c (joinParts c ps) = ps := by
  induction ps with
  | nil => exact absurd rfl hne
  | cons p qs ih =>
    cases qs with
    | nil =>
      show splitAllAux c p [] = [p]
      rw [splitAllAux_no_sep c p [] (hp p (List.mem_cons_self p []))]
      rfl
    | cons q ps' =>
      show splitAllAux c (p ++ c :: joinParts c (q :: ps')) [] = p :: q :: ps'
      rw [splitAllAux_sep c p [] _ (hp p (List.mem_cons_self p _))]
      rw [show ([] : List Char).reverse ++ p = p from by simp]
      rw [show splitAllAux c (joinParts c (q :: ps')) [] =
        splitAll c (joinParts c (q :: ps')) from rfl]
      rw [ih (by simp) fun r hr => hp r (List.mem_cons_of_mem p hr)]

lemma splitAllAux_parts_not_mem (c : Char) (l : List Char) :
    ∀ acc, c ∉ acc → ∀ p ∈ splitAllAux c l acc, c ∉ p := by
  induction l with
  | nil =>
    intro acc hacc p hp
    simp only [splitAllAux, List.mem_singleton] at hp
    subst hp
    simpa using hacc
  | cons x xs ih =>
    intro acc hacc p hp
    by_cases hx : x = c
    · subst hx
      rw [splitAllAux_cons_eq] at hp
      rcases List.mem_cons.mp hp with heq | hmem
      · subst heq
        simpa using hacc
      · exact ih [] (by simp) p hmem
    · rw [splitAllAux_cons_ne c x xs acc hx] at hp
      refine ih (x :: acc) ?_ p hp
      simp only [List.mem_cons, not_or]
      exact ⟨fun heq => hx heq.symm, hacc⟩

lemma splitAllAux_parts_subset (c : Char) (l : List Char) :
    ∀ acc, ∀ p ∈ splitAllAux c l acc, ∀ x ∈ p, x ∈ l ∨ x ∈ acc := by
  induction l with
  | nil =>
    intro acc p hp x hx
    simp only [splitAllAux, List.mem_singleton] at hp
    subst hp
    exact Or.inr (List.mem_reverse.mp hx)
  | cons y ys ih =>
    intro acc p hp x hx
    by_cases hy : y = c
    · subst hy
      rw [splitAllAux_cons_eq] at hp
      rcases List.mem_cons.mp hp with heq | hmem
      · subst heq
        exact Or.inr (List.mem_reverse.mp hx)
      · rcases ih [] p hmem x hx with hin | hin
        · exact Or.inl (List.mem_cons_of_mem y hin)
        · cases hin
    · rw [splitAllAux_cons_ne c y ys acc hy] at hp
      rcases ih (y :: acc) p hp x hx with hin | hin
      · exact Or.inl (List.mem_cons_of_mem y hin)
      · rcases List.mem_cons.mp hin with heq | hmem
        · subst heq
          exact Or.inl (List.mem_cons_self x ys)
        · exact Or.inr hmem

/-- Parsed components of a meeting URL: scheme, host, path (empty or starting
with a slash), the raw `&`-separated query parameters when a `?` is present,
and the fragment when a `#` is present. -/
structure UrlParts where
  scheme : List Char
  host : List Char
  path : List Char
  query : Option (List (List Char))
  fragment : Option (List Char)
deriving DecidableEq, Repr

/-- Best-effort URL parsing: split at the first `#` (fragment), then at the
first `?` (query), split the remainder at the first `:` and require a `//`
to follow, then split host from path at the first `/`.  Inputs without a
`scheme://` shape are unparsable. -/
def parseUrl (l : List Char) : Option UrlParts :=
  match (splitFirst ':' (splitFirst '?' (splitFirst '#' l).1).1).2 with
  | some ('/' :: '/' :: hostpath) =>
    some { scheme := (splitFirst ':' (splitFirst '?' (splitFirst '#' l).1).1).1
           host := (splitFirst '/' hostpath).1
           path :=
             match (splitFirst '/' hostpath).2 with
             | none => []
             | some p => '/' :: p
           query := ((splitFirst '?' (splitFirst '#' l).1).2).map (splitAll '&')
           fragment := (splitFirst '#' l).2 }
  | _ => none

/-- The query portion of a serialized URL. -/
def queryText : Option (List (List Char)) → List Char
  | none => []
  | some ps => '?' :: joinParts '&' ps

/-- The fragment portion of a serialized URL. -/
def fragText : Option (List Char) → List Char
  | none => []
  | some f => '#' :: f

/-- Reassemble a URL from its components. -/
def serializeUrl (u : UrlParts) : List Char :=
  u.scheme ++ ':' :: '/' :: '/' :: u.host ++ u.path ++
    queryText u.query ++ fragText u.fragment

/-- Modelled from the spec: the deny-listed click-id / analytics query
parameter keys stripped by `_normalize_meeting_url` besides the `utm_*`
family (DEDUPLICATION_TEST_REPORT.md names `utm_*`, `fbclid`, `gclid` "and
other tracking parameters"). -/
def TRACKING_PARAM_KEYS : List (List Char) :=
  ["fbclid".data, "gclid".data, "msclkid".data, "dclid".data,
    "igshid".data, "mc_eid".data, "mc_cid".data]

/-- Is this raw `key=value` query parameter a deny-listed tracking
parameter?  The key (the part before the first `=`) is compared
case-insensitively. -/
def isTrackingParam (p : List Char) : Bool :=
  let k := (splitFirst '=' p).1.map lowerChar
  ("utm_".data).isPrefixOf k || TRACKING_PARAM_KEYS.contains k

/-- Strip all trailing slashes from a path. -/
def dropTrailingSlashes (l : List Char) : List Char :=
  (l.reverse.dropWhile fun c => c = '/').reverse

/-- Modelled from the spec: normalization over parsed components — lower-case
scheme and host, strip deny-listed tracking query parameters (dropping the
`?` entirely when nothing remains), strip the fragment, and strip the
trailing slash (spec section 4.1). -/
def normalizeQuery : Option (List (List Char)) → Option (List (List Char))
  | none => none
  | some ps =>
    match ps.filter (fun p => !isTrackingParam p) with
    | [] => none
    | kept => some kept

/-- Modelled from the spec: component-wise normalization body of
`_normalize_meeting_url` (spec section 4.1). -/
def normalizeParts (u : UrlParts) : UrlParts :=
  { scheme := u.scheme.map lowerChar
    host := u.host.map lowerChar
    path := dropTrailingSlashes u.path
    query := normalizeQuery u.query
    fragment := none }

/-- Modelled from the spec: `_normalize_meeting_url` — parse the raw URL,
normalize its components, and reassemble; unparsable input is returned
unchanged (best-effort total function, spec section 4.1). -/
def normalizeMeetingUrl (s : String) : String :=
  match parseUrl s.data with
  | none => s
  | some u => String.mk (serializeUrl (normalizeParts u))

lemma char_toNat_inj {c d : Char} (h : c.toNat = d.toNat) : c = d :=
  Char.ext (UInt32.ext h)

lemma lowerChar_toNat_of_upper {c : Char} (h : 65 ≤ c.toNat ∧ c.toNat ≤ 90) :
    (lowerChar c).toNat = c.toNat + 32 := by
  unfold lowerChar
  rw [if_pos h]
  have hv : Nat.isValidChar (c.toNat + 32) := by
    left
    omega
  rw [Char.ofNat, dif_pos hv]
  simp [Char.toNat, Char.ofNatAux, UInt32.toNat, UInt32.ofNatCore]

lemma lowerChar_eq_low {c d : Char} (hd : d.toNat < 65) :
    lowerChar c = d ↔ c = d := by
  constructor
  · intro h
    by_cases hc : 65 ≤ c.toNat ∧ c.toNat ≤ 90
    · exfalso
      have := lowerChar_toNat_of_upper hc
      rw [h] at this
      omega
    · rw [lowerChar, if_neg hc] at h
      exact h
  · intro h
    subst h
    rw [lowerChar, if_neg]
    omega

lemma lowerChar_not_upper_eq {c : Char}
    (h : ¬ (65 ≤ c.toNat ∧ c.toNat ≤ 90)) : lowerChar c = c := by
  rw [lowerChar, if_neg h]

lemma lowerChar_idem (c : Char) : lowerChar (lowerChar c) = lowerChar c := by
  by_cases hc : 65 ≤ c.toNat ∧ c.toNat ≤ 90
  · have h := lowerChar_toNat_of_upper hc
    exact lowerChar_not_upper_eq (by omega)
  · rw [lowerChar_not_upper_eq hc, lowerChar_not_upper_eq hc]

lemma map_lowerChar_idem (l : List Char) :
    (l.map lowerChar).map lowerChar = l.map lowerChar := by
  rw [List.map_map]
  exact List.map_congr_left fun c _ => lowerChar_idem c

lemma not_mem_map_lowerChar {d : Char} (hd : d.toNat < 65) (l : List Char)
    (h : d ∉ l) : d ∉ l.map lowerChar := by
  intro hmem
  obtain ⟨c, hc, hlc⟩ := List.mem_map.mp hmem
  exact h (((lowerChar_eq_low hd).mp hlc) ▸ hc)

lemma dropWhile_self (p : Char → Bool) (l : List Char) :
    List.dropWhile p (List.dropWhile p l) = List.dropWhile p l := by
  induction l with
  | nil => rfl
  | cons x xs ih =>
    rw [List.dropWhile_cons]
    by_cases hx : p x = true
    · rw [if_pos hx]
      exact ih
    · rw [if_neg hx, List.dropWhile_cons, if_neg hx]

lemma dropTrailingSlashes_decomp (l : List Char) :
    l = dropTrailingSlashes l ++
      (l.reverse.takeWhile fun c => c = '/').reverse := by
  unfold dropTrailingSlashes
  conv_lhs =>
    rw [← List.reverse_reverse l,
      ← List.takeWhile_append_dropWhile (fun c => c = '/') l.reverse]
  rw [List.reverse_append]

lemma dropTrailingSlashes_subset (l : List Char) :
    ∀ x ∈ dropTrailingSlashes l, x ∈ l := by
  intro x hx
  rw [dropTrailingSlashes_decomp l]
  exact List.mem_append_left _ hx

lemma dropTrailingSlashes_idem (l : List Char) :
    dropTrailingSlashes (dropTrailingSlashes l) = dropTrailingSlashes l := by
  unfold dropTrailingSlashes
  rw [List.reverse_reverse, dropWhile_self]

lemma dropTrailingSlashes_shape (l : List Char)
    (h : l = [] ∨ ∃ p, l = '/' :: p) :
    dropTrailingSlashes l = [] ∨ ∃ p, dropTrailingSlashes l = '/' :: p := by
  rcases hd : dropTrailingSlashes l with - | ⟨y, d⟩
  · exact Or.inl rfl
  · refine Or.inr ⟨d, ?_⟩
    have hdec := dropTrailingSlashes_decomp l
    rw [hd] at hdec
    rcases h with hnil | ⟨p, hp⟩
    · rw [hnil] at hdec
      exact absurd hdec.symm (by simp)
    · rw [hp] at hdec
      rw [List.cons_append] at hdec
      have : y = '/' := (List.cons.injEq _ _ _ _ ▸ hdec).1.symm
      rw [this]

/-- The separator discipline every parsed URL obeys: no component contains a
separator that would change how the serialized URL re-parses. -/
structure UrlWF (u : UrlParts) : Prop where
  scheme_colon : ':' ∉ u.scheme
  scheme_query : '?' ∉ u.scheme
  scheme_hash : '#' ∉ u.scheme
  host_slash : '/' ∉ u.host
  host_query : '?' ∉ u.host
  host_hash : '#' ∉ u.host
  path_shape : u.path = [] ∨ ∃ p, u.path = '/' :: p
  path_query : '?' ∉ u.path
  path_hash : '#' ∉ u.path
  query_parts : ∀ ps, u.query = some ps → ∀ p ∈ ps, '&' ∉ p ∧ '#' ∉ p

lemma not_mem_of_subset {a b : List Char} {d : Char}
    (hsub : ∀ x ∈ a, x ∈ b) (h : d ∉ b) : d ∉ a :=
  fun hm => h (hsub d hm)

lemma parseUrl_wf (l : List Char) (u : UrlParts)
    (h : parseUrl l = some u) : UrlWF u := by
  unfold parseUrl at h
  split at h
  case h_2 => exact absurd h (by simp)
  case h_1 hostpath hrest =>
    rw [Option.some_inj] at h
    subst h
    have hBH_hash : '#' ∉ (splitFirst '#' l).1 := splitFirst_fst_not_mem '#' l
    have hBQ_query : '?' ∉ (splitFirst '?' (splitFirst '#' l).1).1 :=
      splitFirst_fst_not_mem '?' _
    have hBQ_sub : ∀ x ∈ (splitFirst '?' (splitFirst '#' l).1).1,
        x ∈ (splitFirst '#' l).1 := splitFirst_fst_subset '?' _
    have hBQ_hash : '#' ∉ (splitFirst '?' (splitFirst '#' l).1).1 :=
      not_mem_of_subset hBQ_sub hBH_hash
    have hsch_sub : ∀ x ∈ (splitFirst ':'
        (splitFirst '?' (splitFirst '#' l).1).1).1,
        x ∈ (splitFirst '?' (splitFirst '#' l).1).1 :=
      splitFirst_fst_subset ':' _
    have hrest_sub : ∀ x ∈ ('/' :: '/' :: hostpath),
        x ∈ (splitFirst '?' (splitFirst '#' l).1).1 :=
      splitFirst_snd_subset ':' _ _ hrest
    have hhp_sub : ∀ x ∈ hostpath,
        x ∈ (splitFirst '?' (splitFirst '#' l).1).1 :=
      fun x hx => hrest_sub x
        (List.mem_cons_of_mem _ (List.mem_cons_of_mem _ hx))
    have hhost_sub : ∀ x ∈ (splitFirst '/' hostpath).1, x ∈ hostpath :=
      splitFirst_fst_subset '/' _
    refine ⟨splitFirst_fst_not_mem ':' _,
      not_mem_of_subset hsch_sub hBQ_query,
      not_mem_of_subset hsch_sub hBQ_hash,
      splitFirst_fst_not_mem '/' _,
      not_mem_of_subset (fun x hx => hhp_sub x (hhost_sub x hx)) hBQ_query,
      not_mem_of_subset (fun x hx => hhp_sub x (hhost_sub x hx)) hBQ_hash,
      ?_, ?_, ?_, ?_⟩
    · rcases hp : (splitFirst '/' hostpath).2 with - | p
      · exact Or.inl (by simp [hp])
      · exact Or.inr ⟨p, by simp [hp]⟩
    · rcases hp : (splitFirst '/' hostpath).2 with - | p
      · simp [hp]
      · have hpsub := splitFirst_snd_subset '/' hostpath p hp
        simp only [hp, List.mem_cons, not_or]
        constructor
        · decide
        · exact not_mem_of_subset (fun x hx => hhp_sub x (hpsub x hx))
            hBQ_query
    · rcases hp : (splitFirst '/' hostpath).2 with - | p
      · simp [hp]
      · have hpsub := splitFirst_snd_subset '/' hostpath p hp
        simp only [hp, List.mem_cons, not_or]
        constructor
        · decide
        · exact not_mem_of_subset (fun x hx => hhp_sub x (hpsub x hx))
            hBQ_hash
    · intro ps hps p hp
      rw [Option.map_eq_some'] at hps
      obtain ⟨qtext, hq, hsplit⟩ := hps
      subst hsplit
      have hq_sub := splitFirst_snd_subset '?' _ _ hq
      constructor
      · exact splitAllAux_parts_not_mem '&' qtext [] (by simp) p hp
      · have hsub := splitAllAux_parts_subset '&' qtext [] p hp
        refine not_mem_of_subset (fun x hx => ?_)
          (not_mem_of_subset hq_sub hBH_hash)
        rcases hsub x hx with hin | hin
        · exact hin
        · cases hin

lemma joinParts_subset (c : Char) (ps : List (List Char)) :
    ∀ x ∈ joinParts c ps, x = c ∨ ∃ p ∈ ps, x ∈ p := by
  induction ps with
  | nil =>
    intro x hx
    exact absurd hx (List.not_mem_nil x)
  | cons p qs ih =>
    cases qs with
    | nil =>
      intro x hx
      exact Or.inr ⟨p, List.mem_cons_self p [], hx⟩
    | cons q ps₂ =>
      intro x hx
      rcases List.mem_append.mp hx with h | h
      · exact Or.inr ⟨p, List.mem_cons_self p _, h⟩
      · rcases List.mem_cons.mp h with h | h
        · exact Or.inl h
        · rcases ih x h with h | ⟨r, hr, hxr⟩
          · exact Or.inl h
          · exact Or.inr ⟨r, List.mem_cons_of_mem p hr, hxr⟩

lemma not_mem_urlbody {d : Char} (sch ho pa : List Char) (h1 : d ∉ sch)
    (h2 : ¬ d = ':') (h3 : ¬ d = '/') (h4 : d ∉ ho) (h5 : d ∉ pa) :
    d ∉ sch ++ ':' :: '/' :: '/' :: (ho ++ pa) := by
  intro hmem
  rcases List.mem_append.mp hmem with h | h
  · exact h1 h
  · rcases List.mem_cons.mp h with h | h
    · exact h2 h
    · rcases List.mem_cons.mp h with h | h
      · exact h3 h
      · rcases List.mem_cons.mp h with h | h
        · exact h3 h
        · rcases List.mem_append.mp h with h | h
          · exact h4 h
          · exact h5 h

lemma serializeUrl_shape (sch ho pa : List Char)
    (qu : Option (List (List Char))) :
    serializeUrl ⟨sch, ho, pa, qu, none⟩ =
      (sch ++ ':' :: '/' :: '/' :: (ho ++ pa)) ++ queryText qu := by
  show (sch ++ ':' :: '/' :: '/' :: ho ++ pa ++ queryText qu ++ fragText none)
    = (sch ++ ':' :: '/' :: '/' :: (ho ++ pa)) ++ queryText qu
  show (sch ++ ':' :: '/' :: '/' :: ho ++ pa ++ queryText qu ++ ([] : List Char))
    = _
  rw [List.append_nil]
  simp [List.append_assoc, List.cons_append]

lemma parseUrl_serializeUrl (u : UrlParts) (hwf : UrlWF u)
    (hfrag : u.fragment = none)
    (hqne : ∀ ps, u.query = some ps → ps ≠ []) :
    parseUrl (serializeUrl u) = some u := by
  obtain ⟨sch, ho, pa, qu, fr⟩ := u
  obtain ⟨h1, h2, h3, h4, h5, h6, h7, h8, h9, h10⟩ := hwf
  have hfr : fr = none := hfrag
  subst hfr
  have hA_q : '?' ∉ sch ++ ':' :: '/' :: '/' :: (ho ++ pa) :=
    not_mem_urlbody sch ho pa h2 (by decide) (by decide) h5 h8
  have hA_h : '#' ∉ sch ++ ':' :: '/' :: '/' :: (ho ++ pa) :=
    not_mem_urlbody sch ho pa h3 (by decide) (by decide) h6 h9
  have hQ_h : '#' ∉ queryText qu := by
    rcases qu with - | ps
    · exact List.not_mem_nil '#'
    · intro hmem
      rcases List.mem_cons.mp hmem with h | h
      · exact absurd h (by decide)
      · rcases joinParts_subset '&' ps '#' h with h | ⟨p, hp, hxp⟩
        · exact absurd h (by decide)
        · exact (h10 ps rfl p hp).2 hxp
  have hser := serializeUrl_shape sch ho pa qu
  have hhash : splitFirst '#' (serializeUrl ⟨sch, ho, pa, qu, none⟩) =
      (serializeUrl ⟨sch, ho, pa, qu, none⟩, none) := by
    refine splitFirst_of_not_mem '#' _ ?_
    rw [hser]
    intro hmem
    rcases List.mem_append.mp hmem with h | h
    · exact hA_h h
    · exact hQ_h h
  have hcolon : splitFirst ':' (sch ++ ':' :: '/' :: '/' :: (ho ++ pa)) =
      (sch, some ('/' :: '/' :: (ho ++ pa))) :=
    splitFirst_append ':' sch _ h1
  rcases qu with - | ps
  · have hser₂ : serializeUrl ⟨sch, ho, pa, none, none⟩ =
        sch ++ ':' :: '/' :: '/' :: (ho ++ pa) := by
      rw [hser]
      exact List.append_nil _
    have hquery : splitFirst '?' (sch ++ ':' :: '/' :: '/' :: (ho ++ pa)) =
        (sch ++ ':' :: '/' :: '/' :: (ho ++ pa), none) :=
      splitFirst_of_not_mem '?' _ hA_q
    rcases h7 with hnil | ⟨p₀, hp₀⟩
    · have hpa : pa = [] := hnil
      subst hpa
      have hpath : splitFirst '/' (ho ++ ([] : List Char)) = (ho, none) := by
        rw [List.append_nil]
        exact splitFirst_of_not_mem '/' ho h4
      unfold parseUrl
      rw [hhash]
      simp only [hser₂, hquery, hcolon, hpath]
      rfl
    · have hpa : pa = '/' :: p₀ := hp₀
      subst hpa
      have hpath : splitFirst '/' (ho ++ '/' :: p₀) = (ho, some p₀) :=
        splitFirst_append '/' ho p₀ h4
      unfold parseUrl
      rw [hhash]
      simp only [hser₂, hquery, hcolon, hpath]
      rfl
  · have hps_amp : ∀ p ∈ ps, '&' ∉ p := fun p hp => (h10 ps rfl p hp).1
    have hser₂ : serializeUrl ⟨sch, ho, pa, some ps, none⟩ =
        (sch ++ ':' :: '/' :: '/' :: (ho ++ pa)) ++
          '?' :: joinParts '&' ps := by
      rw [hser]
      rfl
    have hquery : splitFirst '?'
        ((sch ++ ':' :: '/' :: '/' :: (ho ++ pa)) ++
          '?' :: joinParts '&' ps) =
        (sch ++ ':' :: '/' :: '/' :: (ho ++ pa),
          some (joinParts '&' ps)) :=
      splitFirst_append '?' _ _ hA_q
    have hjoin : splitAll '&' (joinParts '&' ps) = ps :=
      splitAll_joinParts '&' ps (hqne ps rfl) hps_amp
    rcases h7 with hnil | ⟨p₀, hp₀⟩
    · have hpa : pa = [] := hnil
      subst hpa
      have hpath : splitFirst '/' (ho ++ ([] : List Char)) = (ho, none) := by
        rw [List.append_nil]
        exact splitFirst_of_not_mem '/' ho h4
      unfold parseUrl
      rw [hhash]
      simp only [hser₂, hquery, hcolon, hpath, Option.map_some', hjoin]
    · have hpa : pa = '/' :: p₀ := hp₀
      subst hpa
      have hpath : splitFirst '/' (ho ++ '/' :: p₀) = (ho, some p₀) :=
        splitFirst_append '/' ho p₀ h4
      unfold parseUrl
      rw [hhash]
      simp only [hser₂, hquery, hcolon, hpath, Option.map_some', hjoin]

lemma normalizeQuery_inv (q : Option (List (List Char)))
    (ps₂ : List (List Char)) (h : normalizeQuery q = some ps₂) :
    ∃ ps, q = some ps ∧
      ps₂ = ps.filter (fun p => !isTrackingParam p) ∧ ps₂ ≠ [] := by
  rcases q with - | ps
  · exact absurd h (by simp [normalizeQuery])
  · simp only [normalizeQuery] at h
    rcases hf : ps.filter (fun p => !isTrackingParam p) with - | ⟨x, xs⟩
    · rw [hf] at h
      exact absurd h (by simp)
    · rw [hf] at h
      have hx : x :: xs = ps₂ := Option.some_inj.mp h
      refine ⟨ps, rfl, ?_, ?_⟩
      · rw [← hx, hf]
      · rw [← hx]
        simp

lemma normalizeQuery_idem (q : Option (List (List Char))) :
    normalizeQuery (normalizeQuery q) = normalizeQuery q := by
  rcases q with - | ps
  · rfl
  · simp only [normalizeQuery]
    rcases hf : ps.filter (fun p => !isTrackingParam p) with - | ⟨x, xs⟩
    · rfl
    · have hself : (x :: xs).filter (fun p => !isTrackingParam p) = x :: xs :=
        List.filter_eq_self.mpr fun a ha =>
          (List.mem_filter.mp (show a ∈ ps.filter (fun p => !isTrackingParam p)
            from by rw [hf]; exact ha)).2
      simp only [normalizeQuery, hself]

lemma normalizeParts_wf (u : UrlParts) (hwf : UrlWF u) :
    UrlWF (normalizeParts u) := by
  refine ⟨not_mem_map_lowerChar (by decide) _ hwf.scheme_colon,
    not_mem_map_lowerChar (by decide) _ hwf.scheme_query,
    not_mem_map_lowerChar (by decide) _ hwf.scheme_hash,
    not_mem_map_lowerChar (by decide) _ hwf.host_slash,
    not_mem_map_lowerChar (by decide) _ hwf.host_query,
    not_mem_map_lowerChar (by decide) _ hwf.host_hash,
    dropTrailingSlashes_shape _ hwf.path_shape,
    not_mem_of_subset (dropTrailingSlashes_subset _) hwf.path_query,
    not_mem_of_subset (dropTrailingSlashes_subset _) hwf.path_hash,
    ?_⟩
  intro ps₂ hps₂ p hp
  obtain ⟨ps, hq, hfil, -⟩ := normalizeQuery_inv _ ps₂ hps₂
  exact hwf.query_parts ps hq p (List.mem_filter.mp (hfil ▸ hp)).1

lemma normalizeParts_idem (u : UrlParts) :
    normalizeParts (normalizeParts u) = normalizeParts u := by
  unfold normalizeParts
  simp only [UrlParts.mk.injEq]
  exact ⟨map_lowerChar_idem _, map_lowerChar_idem _,
    dropTrailingSlashes_idem _, normalizeQuery_idem _, trivial⟩

/-- C8: URL normalization is idempotent — for every input string `x`,
`normalize(normalize(x)) = normalize(x)`, where normalization lower-cases
scheme and host, strips deny-listed tracking query parameters, strips the
fragment, and strips the trailing slash. -/
theorem normalizeMeetingUrl_idempotent (s : String) :
    normalizeMeetingUrl (normalizeMeetingUrl s) = normalizeMeetingUrl s := by
  rcases hp : parseUrl s.data with - | u
  · have h1 : normalizeMeetingUrl s = s := by
      unfold normalizeMeetingUrl
      rw [hp]
    rw [h1]
    exact h1
  · have hwf := parseUrl_wf s.data u hp
    have h1 : normalizeMeetingUrl s =
        String.mk (serializeUrl (normalizeParts u)) := by
      unfold normalizeMeetingUrl
      rw [hp]
    have hround : parseUrl
        (String.mk (serializeUrl (normalizeParts u))).data =
        some (normalizeParts u) := by
      rw [show (String.mk (serializeUrl (normalizeParts u))).data =
        serializeUrl (normalizeParts u) from rfl]
      refine parseUrl_serializeUrl _ (normalizeParts_wf u hwf) rfl ?_
      intro ps hps
      obtain ⟨ps₀, -, -, hne⟩ := normalizeQuery_inv _ ps hps
      exact hne
    have h2 : normalizeMeetingUrl
        (String.mk (serializeUrl (normalizeParts u))) =
        String.mk (serializeUrl (normalizeParts (normalizeParts u))) := by
      unfold normalizeMeetingUrl
      rw [hround]
    rw [h1, h2, normalizeParts_idem]

/-- Modelled from the spec: the hash preimage of the session key,
`f"{org_id}:{normalized_url}"` (DEDUPLICATION_TEST_REPORT.md, "Session ID
Generation"). -/
def sessionKeyInput (tenant canonicalUrl : String) : String :=
  tenant ++ ":" ++ canonicalUrl

/-- Modelled from the spec: `session_id = SHA256(org_id + ":" +
normalized_url)`.  The SHA-256 digest itself is not part of this repository;
following the spec's collision-resistance postulate (spec section 4.2) it is
abstracted as a digest function parameter, assumed injective where a theorem
needs collision-freeness. -/
def deriveSessionId (digest : String → String)
    (tenant rawUrl : String) : String :=
  digest (sessionKeyInput tenant (normalizeMeetingUrl rawUrl))

lemma sessionKeyInput_tenant_inj (t₁ t₂ x : String)
    (h : sessionKeyInput t₁ x = sessionKeyInput t₂ x) : t₁ = t₂ := by
  unfold sessionKeyInput at h
  have hdata : (t₁.data ++ ":".data) ++ x.data =
      (t₂.data ++ ":".data) ++ x.data := by
    have := congrArg String.data h
    simpa [String.data_append] using this
  have h₂ := List.append_cancel_right hdata
  have h₃ := List.append_cancel_right h₂
  exact String.ext h₃

/-- C3: for distinct tenants and the same URL the derived session identifiers
differ — the digest preimages `tenant:canonical_url` are distinct strings, so
any collision-free digest (the spec's collision-resistance assumption for
SHA-256) maps them to distinct session ids; sessions are never shared across
tenants. -/
theorem tenant_isolation (digest : String → String)
    (hinj : Function.Injective digest) (t₁ t₂ u : String) (hne : t₁ ≠ t₂) :
    deriveSessionId digest t₁ u ≠ deriveSessionId digest t₂ u := by
  intro h
  exact hne (sessionKeyInput_tenant_inj t₁ t₂ (normalizeMeetingUrl u)
    (hinj h))

/-- Closed witness for `tenant_isolation`: the identity digest (injective) on
two concrete tenants and a concrete URL. -/
theorem tenant_isolation_witness :
    Function.Injective (fun s : String => s) ∧
      ("org-alpha" : String) ≠ "org-beta" ∧
      deriveSessionId (fun s => s) "org-alpha" "https://x.test/meet/1" ≠
        deriveSessionId (fun s => s) "org-beta" "https://x.test/meet/1" := by
  refine ⟨fun a b h => h, by decide, ?_⟩
  exact tenant_isolation (fun s => s) (fun a b h => h)
    "org-alpha" "org-beta" "https://x.test/meet/1" (by decide)

/-- C4: session key derivation is a deterministic pure function of the tenant
and the canonical URL — any two raw URLs with equal normalizations derive the
same session id, for every digest function (no randomness, clock or replica
dependence is even expressible). -/
theorem derive_deterministic (digest : String → String)
    (tenant u₁ u₂ : String)
    (h : normalizeMeetingUrl u₁ = normalizeMeetingUrl u₂) :
    deriveSessionId digest tenant u₁ = deriveSessionId digest tenant u₂ := by
  unfold deriveSessionId
  rw [h]

/-- Closed witness for `derive_deterministic`: a URL with a tracking
parameter and an upper-cased variant with a fragment normalize identically
and derive the same session id. -/
theorem derive_deterministic_witness :
    normalizeMeetingUrl "https://x.test/meet/1?utm_source=x" =
        normalizeMeetingUrl "https://X.TEST/meet/1#frag" ∧
      deriveSessionId (fun s => s) "acme"
          "https://x.test/meet/1?utm_source=x" =
        deriveSessionId (fun s => s) "acme" "https://X.TEST/meet/1#frag" := by
  refine ⟨by decide, ?_⟩
  exact derive_deterministic (fun s => s) "acme"
    "https://x.test/meet/1?utm_source=x" "https://X.TEST/meet/1#frag"
    (by decide)

end MeetingBot
